import Mathlib

/-!
Verification of the ugly-midi library (files `containers.py`, `instrument.py`,
`midi_file.py`, `misc.py`) against its natural-language specification.

The Python code is shallowly embedded: each Python function or loop used by a
claim is translated into an executable Lean definition over `Nat`/`Int` data.
Python exceptions become `Except PyErr`; Python dictionaries become
association lists; the stable `sorted` builtin becomes a stable insertion
sort; `round` (banker's rounding of an exact ratio) becomes `roundHalfEven`.
-/

set_option maxRecDepth 8000

namespace UglyMidi

/-- Python exceptions that the embedded code can raise. -/
inductive PyErr where
  | valueError (msg : String)
  | attributeError (msg : String)
  | zeroDivisionError
  deriving DecidableEq, Repr

/-- containers.Note: velocity, pitch, start tick, end tick.  The Python
attribute `end` is called `stop` here because `end` is a Lean keyword.
All four fields are coerced with `int(...)` in the Python constructor; in
this code base they are always non-negative, so they are naturals here. -/
structure Note where
  velocity : ℕ
  pitch : ℕ
  start : ℕ
  stop : ℕ
  deriving DecidableEq, Repr

/-- containers.KeySignature: validated key number (an int in [0, 24)) and time. -/
structure KeySignature where
  key_number : ℤ
  time : ℕ
  deriving DecidableEq, Repr

/-- containers.TimeSignature: validated positive numerator and denominator, and time. -/
structure TimeSignature where
  numerator : ℕ
  denominator : ℕ
  time : ℕ
  deriving DecidableEq, Repr

/-- containers.TempoChange: tempo in bpm (a float in Python, an exact rational
here) and time. -/
structure TempoChange where
  tempo : ℚ
  time : ℕ
  deriving DecidableEq, Repr

/-- instrument.Instrument: program, drum flag, display name and owned notes.
`control_changes`/`pitch_bends` are omitted: the straggler dictionary in
`_load_instruments` is never populated, so those fields stay empty in every
code path relevant to the claims. -/
structure Instrument where
  program : ℕ
  is_drum : Bool
  name : String
  notes : List Note
  deriving DecidableEq, Repr

/-- The in-memory document state shared by `MidiLoader` and `MidiWriter`:
resolution, the three meta-event lists and the instruments. -/
structure MidiObjectState where
  resolution : ℕ
  key_signatures : List KeySignature
  time_signatures : List TimeSignature
  tempo_changes : List TempoChange
  instruments : List Instrument
  deriving DecidableEq, Repr

/-! ## Resolution rescaling (instrument.change_resolution, MidiLoader._change_resolution) -/

/-- Python `round(x / den)` for naturals: round half to even (banker's
rounding).  `_change_resolution` passes `scale = res / self.resolution`;
the embedding keeps that ratio exact as `num / den` instead of modelling
binary floating point. -/
def roundHalfEven (x den : ℕ) : ℕ :=
  let q := x / den
  let r := x % den
  if 2 * r < den then q
  else if den < 2 * r then q + 1
  else if q % 2 = 0 then q else q + 1

/-- The loop body of `Instrument.change_resolution(scale, discard_short_notes)`.
The scale is the exact fraction `num / den`.  Note the faithful translation of
the source `return` statement: when a note collapses (`start == end`) and
`discard_short_notes` is true, the whole loop is abandoned, so the collapsed
note and every note after it keep their old ticks. -/
def changeResolutionNotes (num den : ℕ) (discard : Bool) : List Note → List Note
  | [] => []
  | n :: rest =>
    let s := roundHalfEven (n.start * num) den
    let e := roundHalfEven (n.stop * num) den
    if s = e then
      if discard then n :: rest
      else ⟨n.velocity, n.pitch, s, e + 1⟩ :: changeResolutionNotes num den discard rest
    else ⟨n.velocity, n.pitch, s, e⟩ :: changeResolutionNotes num den discard rest

/-- instrument.Instrument.change_resolution. -/
def Instrument.change_resolution (i : Instrument) (num den : ℕ) (discard : Bool) : Instrument :=
  { i with notes := changeResolutionNotes num den discard i.notes }

/-- midi_file.MidiLoader._change_resolution: no-op when the resolutions match,
otherwise every instrument is rescaled by `res / self.resolution` (with the
default `discard_short_notes=False`) and the stored resolution is replaced.
Meta-event ticks are not touched. -/
def changeResolutionDoc (st : MidiObjectState) (res : ℕ) : MidiObjectState :=
  if st.resolution = res then st
  else
    { st with
      instruments := st.instruments.map (fun i => i.change_resolution res st.resolution false)
      resolution := res }

/-! ## Piano-roll codec (instrument.get_piano_roll, get_instrument_from_piano_roll) -/

/-- A dense numpy matrix of shape `rows x cols` indexed time-major, as the
piano-roll code builds it.  Values are the (integral) velocity sums. -/
structure PianoRoll where
  rows : ℕ
  cols : ℕ
  val : ℕ → ℕ → ℕ

/-- instrument.Instrument.get_end_time: max note end, 0 with no notes. -/
def Instrument.get_end_time (i : Instrument) : ℕ :=
  (i.notes.map (·.stop)).foldr max 0

/-- One iteration of the note loop in `get_piano_roll`: skip a note starting
at or after `T` (the matrix length), otherwise add its velocity on the
region `[start, min stop T) x pitch` (numpy `piano_roll[start:end, pitch] += velocity`
with `end = min(n.end, end_time)`). -/
def addNote (T : ℕ) (m : ℕ → ℕ → ℕ) (n : Note) : ℕ → ℕ → ℕ :=
  if T ≤ n.start then m
  else fun t p => if p = n.pitch ∧ n.start ≤ t ∧ t < min n.stop T then m t p + n.velocity else m t p

/-- instrument.Instrument.get_piano_roll.  With no notes the source returns
`np.array([[] * 128])`, and `[] * 128` is `[]`, so the result is the 1 x 0
matrix.  Otherwise it is `np.zeros((end_time, 128))` filled by the note loop.
Pitches are 0..127 for every instrument this library builds (the MIDI codec
validates note numbers), so the fill never indexes out of bounds. -/
def Instrument.get_piano_roll (i : Instrument) (end_time : Option ℕ) : PianoRoll :=
  if i.notes = [] then ⟨1, 0, fun _ _ => 0⟩
  else
    let T := end_time.getD i.get_end_time
    ⟨T, 128, i.notes.foldl (addNote T) (fun _ _ => 0)⟩

/-- The per-pitch scan loop of `get_instrument_from_piano_roll` (identical in
instrument.py and misc.py).  `col` is the remaining column, `t` the absolute
index of its head, `prev` the previous value (`prev_val`), `startT` the
Python `start_t` variable, which is -1 outside a run.  After the loop the
still-open run is flushed with end `roll.shape[0]`, which is the final `t`.
`start_t` is only read while `prev_val != 0`, and then it holds the tick of
the last zero-to-nonzero transition, so `Int.toNat` is exact. -/
def rleAux (p : ℕ) : List ℕ → ℕ → ℕ → ℤ → List Note
  | [], t, prev, startT =>
    if prev ≠ 0 then [⟨prev, p, startT.toNat, t⟩] else []
  | v :: rest, t, prev, startT =>
    if prev = 0 ∧ v ≠ 0 then
      rleAux p rest (t + 1) v t
    else if prev ≠ 0 ∧ v = 0 then
      ⟨prev, p, startT.toNat, t⟩ :: rleAux p rest (t + 1) v (-1)
    else
      rleAux p rest (t + 1) v startT

/-- Column `p` of a roll, as the list `[roll.val 0 p, ..., roll.val (rows-1) p]`. -/
def column (roll : PianoRoll) (p : ℕ) : List ℕ :=
  (List.range roll.rows).map (fun t => roll.val t p)

/-- instrument.get_instrument_from_piano_roll (same code in misc.py): shape
check, then per pitch column the run-length scan; notes are accumulated in
pitch-major order. -/
def get_instrument_from_piano_roll (roll : PianoRoll) (program : ℕ) (is_drum : Bool)
    (name : String) : Except PyErr Instrument :=
  if roll.cols ≠ 128 then
    .error (.valueError "Piano roll must have shape frames x 128")
  else
    .ok ⟨program, is_drum, name,
      (List.range roll.cols).flatMap (fun p => rleAux p (column roll p) 0 0 (-1))⟩

/-- Specification-side predicate: `[s, e)` is a maximal contiguous non-zero
run of the column `c`. -/
def IsRun (c : List ℕ) (s e : ℕ) : Prop :=
  s < e ∧ e ≤ c.length ∧ (∀ t, t < e → s ≤ t → c.getD t 0 ≠ 0) ∧
    (s = 0 ∨ c.getD (s - 1) 0 = 0) ∧ (e = c.length ∨ c.getD e 0 = 0)

instance (c : List ℕ) (s e : ℕ) : Decidable (IsRun c s e) := by
  unfold IsRun; infer_instance

/-- Index of the first zero entry of a list (its length if there is none):
the length of the maximal non-zero prefix. -/
def firstZero : List ℕ → ℕ
  | [] => 0
  | v :: rest => if v = 0 then 0 else firstZero rest + 1

/-- Concrete instrument exercising the `discard_short_notes=True` path of
`change_resolution`: at scale 1/2 the first note collapses to start = end = 0. -/
def c5Instr : Instrument :=
  ⟨0, false, "", [⟨80, 60, 0, 1⟩, ⟨80, 60, 2, 4⟩]⟩

/-- A 3 x 128 roll whose pitch-0 column is `[5, 7, 0]`: one run covering
ticks 0 and 1 whose value changes inside the run. -/
def c2Roll : PianoRoll :=
  ⟨3, 128, fun t p => if p = 0 then (if t = 0 then 5 else if t = 1 then 7 else 0) else 0⟩

/-- `n` sounds at pitch `q` and tick `t`. -/
def covers (n : Note) (q t : ℕ) : Prop :=
  n.pitch = q ∧ n.start ≤ t ∧ t < n.stop

instance (n : Note) (q t : ℕ) : Decidable (covers n q t) := by
  unfold covers; infer_instance

/-- Two notes of the same pitch are strictly separated: one ends before the
other starts, with at least one silent tick in between. -/
def sepSamePitch (a b : Note) : Prop :=
  a.pitch = b.pitch → a.stop < b.start ∨ b.stop < a.start

instance (a b : Note) : Decidable (sepSamePitch a b) := by
  unfold sepSamePitch; infer_instance

/-- Two same-pitch notes that abut (`[0,2)` and `[2,4)`, same velocity):
they do not overlap, yet their encodings merge into one run. -/
def c7Instr : Instrument :=
  ⟨0, false, "", [⟨5, 60, 0, 2⟩, ⟨5, 60, 2, 4⟩]⟩

/-- A valid, separated instrument for the round-trip witness. -/
def c7Witness : Instrument :=
  ⟨3, false, "w", [⟨100, 60, 1, 3⟩, ⟨90, 60, 4, 6⟩, ⟨80, 61, 0, 2⟩]⟩

/-- A one-note instrument used to witness the piano-roll shape claim. -/
def c9Instr : Instrument :=
  ⟨0, false, "", [⟨100, 60, 1, 3⟩]⟩

/-! ## Serialization (MidiLoader.write, MidiWriter.write) -/

/-- The meta messages built for track 0 of the output file.  `set_tempo`
carries `bpm2tempo(tc.bpm)`, but that code is unreachable (see
`buildMetaEvents`), so its payload type does not matter. -/
inductive MetaMsg where
  | key_signature (key : String) (time : ℕ)
  | time_signature (numerator denominator : ℕ) (time : ℕ)
  | set_tempo (tempo : ℕ) (time : ℕ)
  deriving DecidableEq, Repr

def MetaMsg.time : MetaMsg → ℕ
  | .key_signature _ t => t
  | .time_signature _ _ t => t
  | .set_tempo _ t => t

def MetaMsg.withTime : MetaMsg → ℕ → MetaMsg
  | .key_signature k _, t => .key_signature k t
  | .time_signature a b _, t => .time_signature a b t
  | .set_tempo x _, t => .set_tempo x t

/-- A note_on/note_off message on an instrument track. -/
structure NoteMsg where
  note_on : Bool
  channel : ℕ
  note : ℕ
  velocity : ℕ
  time : ℕ
  deriving DecidableEq, Repr

def NoteMsg.withTime (m : NoteMsg) (t : ℕ) : NoteMsg :=
  { m with time := t }

/-- Stable insertion sort by a time key: the model of the Python stable
builtin `sorted(msgs, key=lambda msg: msg.time)` (equal keys keep their
original relative order in both). -/
def insertByTime {α : Type} (timeOf : α → ℕ) (m : α) : List α → List α
  | [] => [m]
  | x :: xs => if timeOf x ≤ timeOf m then x :: insertByTime timeOf m xs else m :: x :: xs

def sortByTime {α : Type} (timeOf : α → ℕ) (l : List α) : List α :=
  l.foldl (fun acc m => insertByTime timeOf m acc) []

/-- The delta-encoding loop of both write methods: each emitted message
carries its time minus the previous absolute time, and the running `now`
becomes the current absolute time.  Times are sorted non-decreasing before
this runs, so natural subtraction is exact. -/
def deltaEncode {α : Type} (timeOf : α → ℕ) (withT : α → ℕ → α) : List α → ℕ → List α
  | [], _ => []
  | m :: rest, now => withT m (timeOf m - now) :: deltaEncode timeOf withT rest (timeOf m)

/-- The meta-event phase shared by `MidiLoader.write` and `MidiWriter.write`.
The source loop reads `ks.key` for every key signature, but
`containers.KeySignature` only defines `key_number` and `time`, so the first
iteration raises AttributeError; likewise the tempo loop reads `tc.bpm`, but
`containers.TempoChange` only defines `tempo` and `time`.  Time signatures
are the only meta events that can actually be emitted. -/
def buildMetaEvents (st : MidiObjectState) : Except PyErr (List MetaMsg) :=
  match st.key_signatures with
  | _ :: _ => .error (.attributeError "key")
  | [] =>
    let tsMsgs := st.time_signatures.map
      (fun ts => MetaMsg.time_signature ts.numerator ts.denominator ts.time)
    match st.tempo_changes with
    | _ :: _ => .error (.attributeError "bpm")
    | [] => .ok (deltaEncode MetaMsg.time MetaMsg.withTime (sortByTime MetaMsg.time tsMsgs) 0)

/-- One instrument track of the output: the program_change channel/program
and the delta-encoded note messages. -/
structure InstrTrack where
  channel : ℕ
  program : ℕ
  msgs : List NoteMsg
  deriving DecidableEq, Repr

/-- The note_on/note_off pairs appended for each note of an instrument. -/
def noteMsgs (ch : ℕ) (notes : List Note) : List NoteMsg :=
  notes.flatMap (fun n =>
    [⟨true, ch, n.pitch, n.velocity, n.start⟩, ⟨false, ch, n.pitch, 0, n.stop⟩])

def emitTrack (ch : ℕ) (i : Instrument) : InstrTrack :=
  ⟨ch, i.program,
    deltaEncode NoteMsg.time NoteMsg.withTime (sortByTime NoteMsg.time (noteMsgs ch i.notes)) 0⟩

/-- The channel-assignment and truncation logic of the instrument loop in
both write methods: drums get channel 9; any other instrument gets the
current channel counter, which then advances by one (with NO skip over 9);
after emitting an instrument that pushes the counter past 15 the loop
breaks, dropping all later instruments. -/
def assignLoop : List Instrument → ℕ → List (ℕ × Instrument)
  | [], _ => []
  | i :: rest, cc =>
    if i.is_drum then (9, i) :: assignLoop rest cc
    else (cc, i) :: (if cc + 1 > 15 then [] else assignLoop rest (cc + 1))

/-- All instrument tracks emitted by a write call. -/
def instrumentTracks (instrs : List Instrument) : List InstrTrack :=
  (assignLoop instrs 0).map (fun pr => emitTrack pr.1 pr.2)

def nonDrumCount (instrs : List Instrument) : ℕ :=
  (instrs.filter (fun i => !i.is_drum)).length

/-- The `warnings.warn` advisory for more than 15 non-drum instruments. -/
def tooManyWarning (instrs : List Instrument) : Bool :=
  decide (15 < nonDrumCount instrs)

/-- midi_file.MidiLoader.write: build the meta track (which raises
AttributeError unless both the key-signature and tempo-change lists are
empty), then emit the instrument tracks. -/
def loaderWrite (st : MidiObjectState) : Except PyErr (List MetaMsg × List InstrTrack) :=
  (buildMetaEvents st).map (fun meta => (meta, instrumentTracks st.instruments))

/-- midi_file.MidiWriter.write: same as `loaderWrite` after installing the
default 4/4 time signature and 120 bpm tempo change when those lists are
empty. -/
def writerWrite (st : MidiObjectState) : Except PyErr (List MetaMsg × List InstrTrack) :=
  loaderWrite
    { st with
      time_signatures := if st.time_signatures = [] then [⟨4, 4, 0⟩] else st.time_signatures
      tempo_changes := if st.tempo_changes = [] then [⟨120, 0⟩] else st.tempo_changes }

/-- Specification-side channel assignment with no break: drums on channel 9,
every other instrument on the consecutive counter (no skip of 9). -/
def chanAssignFull : List Instrument → ℕ → List (ℕ × Instrument)
  | [], _ => []
  | i :: rest, cc =>
    if i.is_drum then (9, i) :: chanAssignFull rest cc
    else (cc, i) :: chanAssignFull rest (cc + 1)

/-- Length of the shortest prefix containing `k` non-drum instruments (the
whole list when it has fewer). -/
def cutAt : List Instrument → ℕ → ℕ
  | [], _ => 0
  | i :: rest, k =>
    if i.is_drum then cutAt rest k + 1
    else if k ≤ 1 then 1 else cutAt rest (k - 1) + 1

/-- Sixteen non-drum instruments with distinct programs, one note each. -/
def c3Instrs : List Instrument :=
  (List.range 16).map (fun j => ⟨j, false, "", [⟨64, 60, 0, 4⟩]⟩)

/-- Ten non-drum instruments with distinct programs. -/
def c4Instrs : List Instrument :=
  (List.range 10).map (fun j => ⟨j, false, "", []⟩)

/-- One drum and one melodic instrument, for the channel-assignment witness. -/
def c4WitnessInstrs : List Instrument :=
  [⟨0, true, "", []⟩, ⟨1, false, "", []⟩]

/-! ## The loader (MidiLoader.__init__, _load_track0, _load_instruments) -/

/-- The abstract track events delivered by the external MIDI codec (mido).
`key_signature` carries a string key name such as "C" or "Am", which is what
mido produces. -/
inductive MidiEvent where
  | note_on (channel note velocity : ℕ)
  | note_off (channel note velocity : ℕ)
  | program_change (channel program : ℕ)
  | track_name (name : String)
  | set_tempo (tempo : ℕ)
  | time_signature (numerator denominator : ℕ)
  | key_signature (key : String)
  | end_of_track
  | other
  deriving DecidableEq, Repr

/-- An event with its time field (delta before conversion, absolute after). -/
structure TimedEvent where
  ev : MidiEvent
  time : ℕ
  deriving DecidableEq, Repr

/-- The delta-to-absolute conversion loop:
`event.time += tick; tick = event.time`. -/
def toAbsolute : List TimedEvent → ℕ → List TimedEvent
  | [], _ => []
  | e :: rest, tick => { e with time := e.time + tick } :: toAbsolute rest (e.time + tick)

/-- mido.tempo2bpm: 6e7 / tempo, raising ZeroDivisionError on tempo 0. -/
def tempo2bpm (tempo : ℕ) : Except PyErr ℚ :=
  if tempo = 0 then .error .zeroDivisionError else .ok (60000000 / (tempo : ℚ))

/-- midi_file.MidiLoader._load_track0 together with the eager validation of
the container constructors it calls.  `KeySignature(msg.key, msg.time)`
always raises: mido key names are strings and containers.KeySignature
requires an int in [0, 24).  `TimeSignature` rejects a zero numerator or
denominator; `TempoChange(tempo2bpm(msg.tempo), msg.time)` divides by the
raw tempo.  Note events on track 0 only produce an advisory. -/
def loadTrack0 : List TimedEvent →
    Except PyErr (List KeySignature × List TimeSignature × List TempoChange)
  | [] => .ok ([], [], [])
  | e :: rest =>
    match e.ev with
    | .key_signature _ => .error (.valueError "key_number")
    | .time_signature num den =>
      if num = 0 then .error (.valueError "numerator")
      else if den = 0 then .error (.valueError "denominator")
      else (loadTrack0 rest).map (fun meta => (meta.1, ⟨num, den, e.time⟩ :: meta.2.1, meta.2.2))
    | .set_tempo tempo =>
      (tempo2bpm tempo).bind (fun bpm =>
        (loadTrack0 rest).map (fun meta => (meta.1, meta.2.1, ⟨bpm, e.time⟩ :: meta.2.2)))
    | _ => loadTrack0 rest

/-- Association-list lookup, modelling Python dict access. -/
def alLookup {κ ν : Type} [DecidableEq κ] : List (κ × ν) → κ → Option ν
  | [], _ => none
  | (k, v) :: rest, key => if k = key then some v else alLookup rest key

/-- Association-list store `d[key] = v`: replace in place, else append. -/
def alInsert {κ ν : Type} [DecidableEq κ] : List (κ × ν) → κ → ν → List (κ × ν)
  | [], key, v => [(key, v)]
  | (k, w) :: rest, key, v =>
    if k = key then (k, v) :: rest else (k, w) :: alInsert rest key v

/-- Association-list `del d[key]`. -/
def alErase {κ ν : Type} [DecidableEq κ] : List (κ × ν) → κ → List (κ × ν)
  | [], _ => []
  | (k, w) :: rest, key => if k = key then rest else (k, w) :: alErase rest key

/-- In-place mutation of the value stored at `key`. -/
def alModify {κ ν : Type} [DecidableEq κ] (f : ν → ν) : List (κ × ν) → κ → List (κ × ν)
  | [], _ => []
  | (k, w) :: rest, key => if k = key then (k, f w) :: rest else (k, w) :: alModify f rest key

/-- The mutable state of the `_load_instruments` event loop: the 16-slot
per-channel program register, the open-note table and the (insertion
ordered) instrument table. -/
structure LoadState where
  current_instrument : ℕ → ℕ
  last_note_on : List ((ℕ × ℕ × ℕ) × (ℕ × ℕ × ℕ))
  instrument_map : List ((ℕ × ℕ × ℕ) × Instrument)

/-- The `__get_instrument` closure: return the map unchanged when the key
`(program, channel, track)` is present, else append a fresh instrument with
`is_drum` iff channel 9.  The straggler branch is dead code (the stragglers
dict is never written), and the display name is read from
`track_name_map[track_idx]` where `track_idx` is the leftover collection
loop variable - the LAST track index - not the `track` parameter; the caller
passes that value as `resolveName`. -/
def getInstrument (prog ch track : ℕ) (resolveName : String)
    (imap : List ((ℕ × ℕ × ℕ) × Instrument)) : List ((ℕ × ℕ × ℕ) × Instrument) :=
  match alLookup imap (prog, ch, track) with
  | some _ => imap
  | none => imap ++ [((prog, ch, track), ⟨prog, ch == 9, resolveName, []⟩)]

/-- The note_off / note_on(velocity 0) arm of the event loop.  Note the
source order: `__get_instrument` runs BEFORE the zero-duration check, so the
instrument is resolved or created even when the pair is then discarded by
`continue`, and on that `continue` the open-note entry is NOT deleted. -/
def closeNote (resolveName : String) (st : LoadState)
    (track_id ch note time : ℕ) : LoadState :=
  match alLookup st.last_note_on (track_id, ch, note) with
  | none => st
  | some (prog, vel, t) =>
    let imap := getInstrument prog ch track_id resolveName st.instrument_map
    if time = t then { st with instrument_map := imap }
    else
      { st with
        instrument_map :=
          alModify (fun i => { i with notes := i.notes ++ [⟨vel, note, t, time⟩] })
            imap (prog, ch, track_id)
        last_note_on := alErase st.last_note_on (track_id, ch, note) }

/-- One iteration of the merged event loop of `_load_instruments`. -/
def instrStep (resolveName : String) (st : LoadState) (te : ℕ × TimedEvent) : LoadState :=
  match te.2.ev with
  | .program_change ch prog =>
    { st with current_instrument := fun c => if c = ch then prog else st.current_instrument c }
  | .note_on ch note vel =>
    if vel > 0 then
      { st with last_note_on :=
          alInsert st.last_note_on (te.1, ch, note) (st.current_instrument ch, vel, te.2.time) }
    else closeNote resolveName st te.1 ch note te.2.time
  | .note_off ch note _ => closeNote resolveName st te.1 ch note te.2.time
  | _ => st

def isInstrEvent : MidiEvent → Bool
  | .program_change _ _ => true
  | .note_on _ _ _ => true
  | .note_off _ _ _ => true
  | _ => false

/-- The last track_name on a track (empty when there is none); the
collection loop overwrites the dict entry at each track_name event. -/
def lastTrackName : List TimedEvent → String → String
  | [], acc => acc
  | e :: rest, acc =>
    match e.ev with
    | .track_name nm => lastTrackName rest nm
    | _ => lastTrackName rest acc

def trackNameAt (tracks : List (List TimedEvent)) (idx : ℕ) : String :=
  lastTrackName (tracks.getD idx []) ""

/-- The `all_events` collection pass: `(track_idx, event)` pairs for
program_change / note_on / note_off events, in track-major order. -/
def collected (tracks : List (List TimedEvent)) : List (ℕ × TimedEvent) :=
  tracks.enum.flatMap (fun pr => (pr.2.filter (fun e => isInstrEvent e.ev)).map (fun e => (pr.1, e)))

/-- midi_file.MidiLoader._load_instruments on absolute-timed tracks: collect,
stable-sort by tick, fold the event loop, read off the instruments in
insertion order. -/
def loadInstruments (tracks : List (List TimedEvent)) : List Instrument :=
  let resolveName := trackNameAt tracks (tracks.length - 1)
  let evs := sortByTime (fun te => te.2.time) (collected tracks)
  (evs.foldl (instrStep resolveName) ⟨fun _ => 0, [], []⟩).instrument_map.map Prod.snd

/-- The corruption message of the max-tick check. -/
def corruptMsg : String := "MIDI file has a largest tick, it is likely corrupt"

/-- `max([max([e.time for e in t]) for t in tracks]) + 1`: Python max raises
on an empty inner sequence (an empty track); otherwise the fold is the
maximum since all times are naturals. -/
def maxTickOf (tracks : List (List TimedEvent)) : Except PyErr ℕ :=
  if tracks.any (fun t => t.isEmpty) then .error (.valueError "max arg is an empty sequence")
  else .ok (((tracks.map (fun t => (t.map (·.time)).foldr max 0)).foldr max 0) + 1)

/-- The parsed input file: type, ticks per beat and raw delta-timed tracks. -/
structure MidiData where
  fileType : ℕ
  ticks_per_beat : ℕ
  tracks : List (List TimedEvent)
  deriving DecidableEq, Repr

/-- midi_file.MidiLoader.__init__: type check, track-count check, resolution
validity check, delta-to-absolute conversion, track-0 extraction, max-tick
corruption check, instrument loading, optional rescale - in that order. -/
def load (md : MidiData) (resolution : Option ℕ) : Except PyErr MidiObjectState :=
  if md.fileType ≠ 1 then .error (.valueError "Midi type is not supported")
  else if md.tracks.length ≤ 1 then .error (.valueError "too few midi tracks")
  else if resolution = some 0 then .error (.valueError "Invalid resolution specified")
  else
    let abs := md.tracks.map (fun t => toAbsolute t 0)
    (loadTrack0 (abs.headD [])).bind (fun meta =>
      (maxTickOf abs).bind (fun maxTick =>
        if 10000000 < maxTick then .error (.valueError corruptMsg)
        else
          let st : MidiObjectState :=
            ⟨md.ticks_per_beat, meta.1, meta.2.1, meta.2.2, loadInstruments abs⟩
          .ok (match resolution with
            | some r => changeResolutionDoc st r
            | none => st)))

/-- The maximum absolute tick over all events after conversion. -/
def maxAbsTick (md : MidiData) : ℕ :=
  ((md.tracks.map (fun t => toAbsolute t 0)).map
    (fun t => (t.map (·.time)).foldr max 0)).foldr max 0

/-- A type-1 two-track input whose track 0 holds a 0/4 time signature and
whose track 1 reaches tick 10^7. -/
def c8Data : MidiData :=
  ⟨1, 480, [[⟨.time_signature 0 4, 0⟩, ⟨.end_of_track, 0⟩],
            [⟨.note_on 0 60 64, 10000000⟩, ⟨.end_of_track, 0⟩]]⟩

/-- The same input with a valid 4/4 time signature: the corruption check is
reached and fires. -/
def c8Witness : MidiData :=
  ⟨1, 480, [[⟨.time_signature 4 4, 0⟩, ⟨.end_of_track, 0⟩],
            [⟨.note_on 0 60 64, 10000000⟩, ⟨.end_of_track, 0⟩]]⟩

/-- Absolute-timed tracks (as `_load_instruments` receives them) with a
note_on immediately closed by a note_off at the same tick 5. -/
def c6Tracks : List (List TimedEvent) :=
  [[⟨.end_of_track, 0⟩],
   [⟨.note_on 0 60 80, 5⟩, ⟨.note_off 0 60 0, 5⟩, ⟨.end_of_track, 5⟩]]

/-- A loader state with one open note (track 1, channel 0, pitch 60,
program 0, velocity 80, opened at tick 5). -/
def c6State : LoadState :=
  ⟨fun _ => 0, [((1, 0, 60), (0, 80, 5))], []⟩



end UglyMidi

namespace UglyMidi

/-! ## Run-length lemmas about the decode scan -/

theorem firstZero_le (c : List ℕ) : firstZero c ≤ c.length := by
  induction c with
  | nil => simp [firstZero]
  | cons v rest ih =>
    by_cases hv : v = 0
    · simp [firstZero, hv]
    · simp only [firstZero, if_neg hv, List.length_cons]
      omega

theorem getD_lt_firstZero {c : List ℕ} {j : ℕ} (h : j < firstZero c) : c.getD j 0 ≠ 0 := by
  induction c generalizing j with
  | nil => simp [firstZero] at h
  | cons v rest ih =>
    by_cases hv : v = 0
    · simp [firstZero, hv] at h
    · simp only [firstZero, if_neg hv] at h
      cases j with
      | zero => simpa using hv
      | succ j => simpa using ih (by omega)

theorem getD_firstZero {c : List ℕ} (h : firstZero c < c.length) :
    c.getD (firstZero c) 0 = 0 := by
  induction c with
  | nil => simp [firstZero] at h
  | cons v rest ih =>
    by_cases hv : v = 0
    · simp [firstZero, hv]
    · simp only [firstZero, if_neg hv] at h ⊢
      simpa using ih (by simpa using h)

theorem getD_drop (c : List ℕ) (k j : ℕ) : (c.drop k).getD j 0 = c.getD (k + j) 0 := by
  induction k generalizing c with
  | zero => simp
  | succ k ih =>
    cases c with
    | nil => simp
    | cons v rest =>
      simp only [List.drop_succ_cons, ih rest]
      have : k + 1 + j = (k + j) + 1 := by omega
      simp [this]

theorem isRun_cons_zero {c : List ℕ} {s e : ℕ} :
    IsRun (0 :: c) s e ↔ ∃ s' e', s = s' + 1 ∧ e = e' + 1 ∧ IsRun c s' e' := by
  constructor
  · rintro ⟨hse, hel, hin, hbl, hbr⟩
    have hs : s ≠ 0 := by
      intro h0
      exact hin 0 (by omega) (by omega) (by simp [h0])
    obtain ⟨s', rfl⟩ : ∃ s', s = s' + 1 := ⟨s - 1, by omega⟩
    obtain ⟨e', rfl⟩ : ∃ e', e = e' + 1 := ⟨e - 1, by omega⟩
    refine ⟨s', e', rfl, rfl, by omega, by simpa using hel, ?_, ?_, ?_⟩
    · intro t ht hst
      simpa using hin (t + 1) (by omega) (by omega)
    · rcases Nat.eq_zero_or_pos s' with h | h
      · exact Or.inl h
      · rcases hbl with h' | h'
        · omega
        · refine Or.inr ?_
          obtain ⟨s'', rfl⟩ : ∃ s'', s' = s'' + 1 := ⟨s' - 1, by omega⟩
          simpa using h'
    · rcases hbr with h | h
      · exact Or.inl (by simpa using h)
      · exact Or.inr (by simpa using h)
  · rintro ⟨s', e', rfl, rfl, hse, hel, hin, hbl, hbr⟩
    refine ⟨by omega, by simpa using Nat.add_le_add_right hel 1, ?_, ?_, ?_⟩
    · intro t ht hst
      obtain ⟨t', rfl⟩ : ∃ t', t = t' + 1 := ⟨t - 1, by omega⟩
      simpa using hin t' (by omega) (by omega)
    · refine Or.inr ?_
      rcases Nat.eq_zero_or_pos s' with h | h
      · simp [h]
      · obtain ⟨s'', rfl⟩ : ∃ s'', s' = s'' + 1 := ⟨s' - 1, by omega⟩
        rcases hbl with h' | h'
        · omega
        · simpa using h'
    · rcases hbr with h | h
      · exact Or.inl (by simp [h])
      · exact Or.inr (by simpa using h)

theorem isRun_head {v : ℕ} {c : List ℕ} (hv : v ≠ 0) {e : ℕ} :
    IsRun (v :: c) 0 e ↔ e = firstZero (v :: c) := by
  constructor
  · rintro ⟨hse, hel, hin, -, hbr⟩
    have hle : e ≤ firstZero (v :: c) := by
      by_contra hlt
      push_neg at hlt
      have h1 : firstZero (v :: c) < (v :: c).length := by
        have := firstZero_le (v :: c)
        omega
      exact hin (firstZero (v :: c)) (by omega) (by omega) (getD_firstZero h1)
    have hge : firstZero (v :: c) ≤ e := by
      by_contra hlt
      push_neg at hlt
      rcases hbr with h | h
      · have := firstZero_le (v :: c)
        omega
      · exact getD_lt_firstZero hlt h
    omega
  · rintro rfl
    have hpos : 0 < firstZero (v :: c) := by
      simp [firstZero, hv]
    refine ⟨hpos, firstZero_le _, ?_, Or.inl rfl, ?_⟩
    · intro t ht _
      exact getD_lt_firstZero ht
    · rcases Nat.lt_or_ge (firstZero (v :: c)) (v :: c).length with h | h
      · exact Or.inr (getD_firstZero h)
      · exact Or.inl (le_antisymm (firstZero_le _) h)

theorem isRun_pos_lower {v : ℕ} {c : List ℕ} (_hv : v ≠ 0) {s e : ℕ}
    (h : IsRun (v :: c) s e) (hs : s ≠ 0) : firstZero (v :: c) + 1 ≤ s := by
  obtain ⟨-, -, -, hbl, -⟩ := h
  rcases hbl with h' | h'
  · omega
  · by_contra hlt
    push_neg at hlt
    exact getD_lt_firstZero (c := v :: c) (j := s - 1) (by omega) h'

theorem isRun_drop {c : List ℕ} {k : ℕ} (hk : k = 0 ∨ c.getD (k - 1) 0 = 0) (s e : ℕ) :
    IsRun (c.drop k) s e ↔ IsRun c (k + s) (k + e) := by
  have hlen : (c.drop k).length = c.length - k := by simp
  constructor
  · rintro ⟨hse, hel, hin, hbl, hbr⟩
    refine ⟨by omega, by omega, ?_, ?_, ?_⟩
    · intro t ht hst
      have h1 := hin (t - k) (by omega) (by omega)
      rwa [getD_drop, Nat.add_sub_cancel' (by omega)] at h1
    · rcases Nat.eq_zero_or_pos s with hs0 | hs0
      · subst hs0
        rcases hk with h | h
        · exact Or.inl (by omega)
        · exact Or.inr (by simpa using h)
      · rcases hbl with h | h
        · omega
        · refine Or.inr ?_
          rw [getD_drop] at h
          rwa [show k + (s - 1) = k + s - 1 by omega] at h
    · rcases hbr with h | h
      · rw [hlen] at h
        rcases le_or_lt k c.length with hkc | hkc
        · exact Or.inl (by omega)
        · omega
      · refine Or.inr ?_
        rwa [getD_drop] at h
  · rintro ⟨hse, hel, hin, hbl, hbr⟩
    refine ⟨by omega, by omega, ?_, ?_, ?_⟩
    · intro t ht hst
      rw [getD_drop]
      exact hin (k + t) (by omega) (by omega)
    · rcases Nat.eq_zero_or_pos s with h | h
      · exact Or.inl h
      · refine Or.inr ?_
        rcases hbl with h' | h'
        · omega
        · rw [getD_drop]
          have : k + (s - 1) = k + s - 1 := by omega
          rw [this]
          exact h'
    · rcases hbr with h | h
      · exact Or.inl (by omega)
      · exact Or.inr (by rw [getD_drop]; exact h)

/-- Shape of the scan while inside a run (`prev != 0`): it emits one note
ending where the column next hits zero (or at the end of the column), then
continues the scan from just past that zero. -/
theorem rleAux_inside (p : ℕ) (c : List ℕ) (t prev : ℕ) (startT : ℤ) (hprev : prev ≠ 0) :
    rleAux p c t prev startT =
      ⟨if firstZero c = 0 then prev else c.getD (firstZero c - 1) 0, p,
        startT.toNat, t + firstZero c⟩ ::
        (if firstZero c < c.length then
          rleAux p (c.drop (firstZero c + 1)) (t + firstZero c + 1) 0 (-1)
        else []) := by
  induction c generalizing t prev startT with
  | nil =>
    simp [rleAux, hprev, firstZero]
  | cons v rest ih =>
    by_cases hv : v = 0
    · subst hv
      simp [rleAux, hprev, firstZero]
    · have h1 : ¬(prev = 0 ∧ v ≠ 0) := by tauto
      have h2 : ¬(prev ≠ 0 ∧ v = 0) := by tauto
      simp only [rleAux, if_neg h1, if_neg h2]
      rw [ih (t + 1) v startT hv]
      simp only [firstZero, if_neg hv]
      congr 1
      · congr 1
        · cases hF : firstZero rest with
          | zero => simp [hF]
          | succ F => simp [hF]
        · omega
      · have hc : firstZero rest + 1 < (v :: rest).length ↔ firstZero rest < rest.length := by
          simp
        by_cases hF : firstZero rest < rest.length
        · rw [if_pos hF, if_pos (by simpa [hc] using hF)]
          have hd : (v :: rest).drop (firstZero rest + 1 + 1) = rest.drop (firstZero rest + 1) :=
            List.drop_succ_cons ..
          rw [hd]
          congr 1
          omega
        · rw [if_neg hF, if_neg (by simpa [hc] using hF)]

/-- Membership in the scan started outside a run (`prev = 0`): exactly the
maximal non-zero runs of the remaining column are emitted, each with the
value at its last tick as velocity. -/
theorem rleAux_out_mem (p : ℕ) :
    ∀ (c : List ℕ) (t : ℕ) (startT : ℤ) (n : Note),
      n ∈ rleAux p c t 0 startT ↔
        ∃ s e, IsRun c s e ∧ n = ⟨c.getD (e - 1) 0, p, t + s, t + e⟩
  | [], t, startT, n => by
    constructor
    · intro h
      simp [rleAux] at h
    · rintro ⟨s, e, ⟨hse, hel, -, -, -⟩, -⟩
      simp at hel
      omega
  | 0 :: rest, t, startT, n => by
    have hstep : rleAux p (0 :: rest) t 0 startT = rleAux p rest (t + 1) 0 startT := by
      simp [rleAux]
    rw [hstep, rleAux_out_mem p rest (t + 1) startT n]
    constructor
    · rintro ⟨s', e', hrun, rfl⟩
      refine ⟨s' + 1, e' + 1, isRun_cons_zero.mpr ⟨s', e', rfl, rfl, hrun⟩, ?_⟩
      have he : 1 ≤ e' := by
        obtain ⟨hse, -, -, -, -⟩ := hrun
        omega
      have hg : (0 :: rest).getD (e' + 1 - 1) 0 = rest.getD (e' - 1) 0 := by
        obtain ⟨e'', rfl⟩ : ∃ e'', e' = e'' + 1 := ⟨e' - 1, by omega⟩
        simp
      rw [hg]
      congr 1 <;> omega
    · rintro ⟨s, e, hrun, rfl⟩
      obtain ⟨s', e', rfl, rfl, hrun'⟩ := isRun_cons_zero.mp hrun
      refine ⟨s', e', hrun', ?_⟩
      have he : 1 ≤ e' := by
        obtain ⟨hse, -, -, -, -⟩ := hrun'
        omega
      have hg : (0 :: rest).getD (e' + 1 - 1) 0 = rest.getD (e' - 1) 0 := by
        obtain ⟨e'', rfl⟩ : ∃ e'', e' = e'' + 1 := ⟨e' - 1, by omega⟩
        simp
      rw [hg]
      congr 1 <;> omega
  | (v + 1) :: rest, t, startT, n => by
    have hv : (v + 1 : ℕ) ≠ 0 := by omega
    have hstep : rleAux p ((v + 1) :: rest) t 0 startT = rleAux p rest (t + 1) (v + 1) t := by
      simp [rleAux]
    obtain ⟨F, hF⟩ : ∃ F, firstZero rest = F := ⟨_, rfl⟩
    have hFc : firstZero ((v + 1) :: rest) = F + 1 := by
      simp [firstZero, hF]
    have hw : ((v + 1) :: rest).getD (F + 1 - 1) 0
        = if F = 0 then v + 1 else rest.getD (F - 1) 0 := by
      cases F with
      | zero => simp
      | succ F' => simp
    rw [hstep, rleAux_inside p rest (t + 1) (v + 1) t hv, hF]
    constructor
    · intro hmem
      rcases List.mem_cons.mp hmem with h0 | htail
      · refine ⟨0, F + 1, ?_, ?_⟩
        · exact (isRun_head hv).mpr hFc.symm
        · rw [h0, hw]
          simp only [Note.mk.injEq]
          refine ⟨?_, ?_, ?_, ?_⟩ <;> first | trivial | omega
      · by_cases hFr : F < rest.length
        · rw [if_pos hFr] at htail
          rw [rleAux_out_mem p (rest.drop (F + 1)) (t + 1 + F + 1) (-1) n] at htail
          obtain ⟨s', e', hrun', rfl⟩ := htail
          have hzero : ((v + 1) :: rest).getD (F + 2 - 1) 0 = 0 := by
            have h1 : ((v + 1) :: rest).getD (F + 1) 0 = rest.getD F 0 := by simp
            rw [show F + 2 - 1 = F + 1 by omega, h1, ← hF]
            exact getD_firstZero (by omega)
          have hdrop : ((v + 1) :: rest).drop (F + 2) = rest.drop (F + 1) := by simp
          have hrun2 : IsRun ((v + 1) :: rest) (F + 2 + s') (F + 2 + e') := by
            rw [← isRun_drop (Or.inr hzero) s' e', hdrop]
            exact hrun'
          refine ⟨F + 2 + s', F + 2 + e', hrun2, ?_⟩
          have he : 1 ≤ e' := by
            obtain ⟨hse, -, -, -, -⟩ := hrun'
            omega
          have hg : (rest.drop (F + 1)).getD (e' - 1) 0
              = ((v + 1) :: rest).getD (F + 2 + e' - 1) 0 := by
            rw [← hdrop, getD_drop]
            congr 1
            omega
          rw [hg]
          simp only [Note.mk.injEq]
          refine ⟨?_, ?_, ?_, ?_⟩ <;> first | trivial | omega
        · rw [if_neg hFr] at htail
          simp at htail
    · rintro ⟨s, e, hrun, rfl⟩
      by_cases hs : s = 0
      · subst hs
        have he : e = F + 1 := by
          have h1 := (isRun_head hv).mp hrun
          rw [hFc] at h1
          exact h1
        subst he
        refine List.mem_cons.mpr (Or.inl ?_)
        rw [hw]
        simp only [Note.mk.injEq]
        refine ⟨?_, ?_, ?_, ?_⟩ <;> first | trivial | omega
      · have hse : s < e := hrun.1
        have hlow : F + 2 ≤ s := by
          have := isRun_pos_lower hv hrun hs
          omega
        have hFr : F < rest.length := by
          obtain ⟨hse', hel, -, -, -⟩ := hrun
          have h2 : ((v + 1) :: rest).length = rest.length + 1 := by simp
          have hFle := firstZero_le rest
          omega
        refine List.mem_cons.mpr (Or.inr ?_)
        rw [if_pos hFr,
          rleAux_out_mem p (rest.drop (F + 1)) (t + 1 + F + 1) (-1) _]
        have hzero : ((v + 1) :: rest).getD (F + 2 - 1) 0 = 0 := by
          have h1 : ((v + 1) :: rest).getD (F + 1) 0 = rest.getD F 0 := by simp
          rw [show F + 2 - 1 = F + 1 by omega, h1, ← hF]
          exact getD_firstZero (by omega)
        have hdrop : ((v + 1) :: rest).drop (F + 2) = rest.drop (F + 1) := by simp
        have hrun' : IsRun (rest.drop (F + 1)) (s - (F + 2)) (e - (F + 2)) := by
          rw [← hdrop, isRun_drop (Or.inr hzero) (s - (F + 2)) (e - (F + 2)),
            show F + 2 + (s - (F + 2)) = s by omega,
            show F + 2 + (e - (F + 2)) = e by omega]
          exact hrun
        refine ⟨s - (F + 2), e - (F + 2), hrun', ?_⟩
        have hg : (rest.drop (F + 1)).getD (e - (F + 2) - 1) 0
            = ((v + 1) :: rest).getD (e - 1) 0 := by
          rw [← hdrop, getD_drop]
          congr 1
          omega
        rw [hg]
        simp only [Note.mk.injEq]
        refine ⟨?_, ?_, ?_, ?_⟩ <;> first | trivial | omega
termination_by c _ _ _ => c.length
decreasing_by
  all_goals simp only [List.length_cons, List.length_drop]
  all_goals omega

/-- C10: rescaling a document to its current resolution is a no-op: the
resolution and every note of every instrument are left unchanged. -/
theorem c10_rescale_to_same_resolution_noop (st : MidiObjectState) :
    changeResolutionDoc st st.resolution = st := by
  simp [changeResolutionDoc]

/-- C5: evaluating the code at the failing input.  With the drop policy and
scale 1/2, the first note rounds to start = end = 0, and the source `return`
then aborts the whole rescale: the collapsed note is not removed and the
second note is not rescaled, so the instrument comes back unchanged instead
of as the claimed `[Note(80, 60, 1, 2)]`. -/
theorem c5_discard_policy_aborts_rescale :
    c5Instr.change_resolution 1 2 true = c5Instr ∧
    c5Instr.change_resolution 1 2 true ≠ ⟨0, false, "", [⟨80, 60, 1, 2⟩]⟩ := by
  constructor
  · rfl
  · decide

/-- C2 counterexample: decoding `c2Roll` emits the single run `[0, 2)` of the
pitch-0 column as a note of velocity 7, the value at the LAST tick of the
run, while the claim demands the value 5 found at the run start (tick 0). -/
theorem c2_counterexample :
    get_instrument_from_piano_roll c2Roll 0 false "" = .ok ⟨0, false, "", [⟨7, 0, 0, 2⟩]⟩ ∧
    c2Roll.val 0 0 = 5 ∧ (7 : ℕ) ≠ 5 := by
  refine ⟨?_, rfl, by decide⟩
  rfl

/-- C9 counterexample: with no notes, `get_piano_roll` returns the 1 x 0
matrix `np.array([[] * 128])`, not a matrix of shape 0 x 128 as the claim
(duration 0, 128 columns) requires. -/
theorem c9_counterexample :
    (Instrument.get_piano_roll ⟨0, false, "", []⟩ none).rows = 1 ∧
    (Instrument.get_piano_roll ⟨0, false, "", []⟩ none).cols = 0 ∧
    ¬((Instrument.get_piano_roll ⟨0, false, "", []⟩ none).rows = 0 ∧
      (Instrument.get_piano_roll ⟨0, false, "", []⟩ none).cols = 128) := by
  refine ⟨rfl, rfl, ?_⟩
  intro h
  exact absurd h.2 (by decide)

/-! ## Decode membership at the instrument level -/

theorem column_length (roll : PianoRoll) (q : ℕ) : (column roll q).length = roll.rows := by
  simp [column]

theorem column_getD_lt {roll : PianoRoll} {q t : ℕ} (h : t < roll.rows) :
    (column roll q).getD t 0 = roll.val t q := by
  unfold column
  rw [List.getD_eq_getElem?_getD, List.getElem?_map, List.getElem?_range h]
  rfl

theorem column_getD_ge {roll : PianoRoll} {q t : ℕ} (h : ¬t < roll.rows) :
    (column roll q).getD t 0 = 0 := by
  unfold column
  rw [List.getD_eq_getElem?_getD, List.getElem?_map,
    List.getElem?_eq_none (by simpa using h)]
  rfl

/-- Characterization of the notes emitted by `get_instrument_from_piano_roll`
on a well-shaped roll: exactly one note per maximal non-zero run of each of
the 128 pitch columns, with the value at the last tick of the run as
velocity. -/
theorem decode_mem_iff (roll : PianoRoll) (h : roll.cols = 128) (program : ℕ)
    (is_drum : Bool) (name : String) (n : Note) :
    (∃ i, get_instrument_from_piano_roll roll program is_drum name = .ok i ∧ n ∈ i.notes) ↔
      ∃ q, q < 128 ∧ ∃ s e, IsRun (column roll q) s e ∧
        n = ⟨(column roll q).getD (e - 1) 0, q, s, e⟩ := by
  unfold get_instrument_from_piano_roll
  rw [if_neg (by simp [h])]
  constructor
  · rintro ⟨i, hi, hn⟩
    obtain rfl : (⟨program, is_drum, name,
        (List.range roll.cols).flatMap (fun q => rleAux q (column roll q) 0 0 (-1))⟩ : Instrument)
        = i := by
      cases hi
      rfl
    simp only [List.mem_flatMap, List.mem_range] at hn
    obtain ⟨q, hq, hmem⟩ := hn
    rw [rleAux_out_mem q (column roll q) 0 (-1) n] at hmem
    obtain ⟨s, e, hrun, heq⟩ := hmem
    refine ⟨q, by omega, s, e, hrun, ?_⟩
    simpa using heq
  · rintro ⟨q, hq, s, e, hrun, rfl⟩
    refine ⟨_, rfl, ?_⟩
    simp only [List.mem_flatMap, List.mem_range]
    refine ⟨q, by omega, ?_⟩
    rw [rleAux_out_mem q (column roll q) 0 (-1) _]
    exact ⟨s, e, hrun, by simp⟩

/-! ## Piano-roll encoding as a pointwise sum -/

theorem foldl_addNote_val (T : ℕ) (ns : List Note) (m : ℕ → ℕ → ℕ) (t q : ℕ) :
    (ns.foldl (addNote T) m) t q =
      m t q + (ns.map (fun n =>
        if n.start < T ∧ q = n.pitch ∧ n.start ≤ t ∧ t < min n.stop T
        then n.velocity else 0)).sum := by
  induction ns generalizing m with
  | nil => simp
  | cons n rest ih =>
    simp only [List.foldl_cons, List.map_cons, List.sum_cons, ih]
    have hstep : addNote T m n t q =
        m t q + (if n.start < T ∧ q = n.pitch ∧ n.start ≤ t ∧ t < min n.stop T
          then n.velocity else 0) := by
      unfold addNote
      by_cases hT : T ≤ n.start
      · rw [if_pos hT, if_neg (fun hc => by omega)]
        omega
      · rw [if_neg hT]
        by_cases hc : q = n.pitch ∧ n.start ≤ t ∧ t < min n.stop T
        · rw [if_pos hc, if_pos ⟨by omega, hc⟩]
        · rw [if_neg hc, if_neg (fun hc' => hc hc'.2)]
          omega
    rw [hstep]
    omega

/-! ## Separated note lists: column values of the encoding -/

theorem sepSamePitch_symm : Symmetric sepSamePitch := by
  intro a b h hba
  rcases h hba.symm with h1 | h1
  · exact Or.inr h1
  · exact Or.inl h1

theorem mem_le_foldr_max {l : List ℕ} {a : ℕ} (h : a ∈ l) : a ≤ l.foldr max 0 := by
  induction l with
  | nil => simp at h
  | cons x xs ih =>
    rcases List.mem_cons.mp h with rfl | h1
    · simp
    · simpa using Or.inr (ih h1)

theorem stop_le_get_end_time {i : Instrument} {n : Note} (hn : n ∈ i.notes) :
    n.stop ≤ i.get_end_time :=
  mem_le_foldr_max (List.mem_map_of_mem _ hn)

theorem sum_no_cover {T q t : ℕ} {ns : List Note}
    (hnone : ∀ m ∈ ns, ¬covers m q t) :
    (ns.map (fun m => if m.start < T ∧ q = m.pitch ∧ m.start ≤ t ∧ t < min m.stop T
      then m.velocity else 0)).sum = 0 := by
  apply List.sum_eq_zero
  intro x hx
  rw [List.mem_map] at hx
  obtain ⟨r, hr, rfl⟩ := hx
  have hnc : ¬(r.start < T ∧ q = r.pitch ∧ r.start ≤ t ∧ t < min r.stop T) := by
    intro hc
    exact hnone r hr ⟨hc.2.1.symm, hc.2.2.1, by have := hc.2.2.2; omega⟩
  rw [if_neg hnc]

theorem sum_cover_unique {T q t : ℕ} {ns : List Note}
    (hp : ns.Pairwise sepSamePitch)
    (hb : ∀ m ∈ ns, m.start < m.stop ∧ m.stop ≤ T)
    {n : Note} (hn : n ∈ ns) (hcov : covers n q t) :
    (ns.map (fun m => if m.start < T ∧ q = m.pitch ∧ m.start ≤ t ∧ t < min m.stop T
      then m.velocity else 0)).sum = n.velocity := by
  induction ns with
  | nil => simp at hn
  | cons a rest ih =>
    rw [List.pairwise_cons] at hp
    obtain ⟨ha_rest, hp_rest⟩ := hp
    have hba := hb a (by simp)
    simp only [List.map_cons, List.sum_cons]
    rcases List.mem_cons.mp hn with rfl | hn1
    · have hcond : n.start < T ∧ q = n.pitch ∧ n.start ≤ t ∧ t < min n.stop T := by
        refine ⟨by omega, hcov.1.symm, hcov.2.1, ?_⟩
        have := hcov.2.2
        omega
      rw [if_pos hcond]
      have hz : ∀ x ∈ rest.map (fun m =>
          if m.start < T ∧ q = m.pitch ∧ m.start ≤ t ∧ t < min m.stop T
          then m.velocity else 0), x = 0 := by
        intro x hx
        rw [List.mem_map] at hx
        obtain ⟨r, hr, rfl⟩ := hx
        have hnc : ¬(r.start < T ∧ q = r.pitch ∧ r.start ≤ t ∧ t < min r.stop T) := by
          intro hc
          have hcovr : covers r q t := ⟨hc.2.1.symm, hc.2.2.1, by have := hc.2.2.2; omega⟩
          have hpq : n.pitch = r.pitch := by rw [hcov.1, hcovr.1]
          rcases ha_rest r hr hpq with h1 | h1
          · have := hcov.2.2; have := hcovr.2.1; omega
          · have := hcovr.2.2; have := hcov.2.1; omega
        rw [if_neg hnc]
      rw [List.sum_eq_zero hz]
      omega
    · have ha0 : ¬(a.start < T ∧ q = a.pitch ∧ a.start ≤ t ∧ t < min a.stop T) := by
        intro hc
        have hcova : covers a q t := ⟨hc.2.1.symm, hc.2.2.1, by have := hc.2.2.2; omega⟩
        have hpq : a.pitch = n.pitch := by rw [hcova.1, hcov.1]
        rcases ha_rest n hn1 hpq with h1 | h1
        · have := hcova.2.2; have := hcov.2.1; omega
        · have := hcov.2.2; have := hcova.2.1; omega
      rw [if_neg ha0, ih hp_rest (fun m hm => hb m (by simp [hm])) hn1]
      omega

/-! ## The encoded roll of a valid separated instrument -/

theorem encoded_roll_eq (i : Instrument) (hne : i.notes ≠ []) :
    i.get_piano_roll none =
      ⟨i.get_end_time, 128, i.notes.foldl (addNote i.get_end_time) (fun _ _ => 0)⟩ := by
  unfold Instrument.get_piano_roll
  rw [if_neg hne]
  rfl

theorem encoded_col_getD (i : Instrument) (hne : i.notes ≠ []) {q t : ℕ}
    (ht : t < i.get_end_time) :
    (column (i.get_piano_roll none) q).getD t 0 =
      (i.notes.map (fun m =>
        if m.start < i.get_end_time ∧ q = m.pitch ∧ m.start ≤ t ∧ t < min m.stop i.get_end_time
        then m.velocity else 0)).sum := by
  rw [encoded_roll_eq i hne, column_getD_lt ht]
  simpa using foldl_addNote_val i.get_end_time i.notes (fun _ _ => 0) t q

theorem encoded_col_cover (i : Instrument)
    (hvalid : ∀ n ∈ i.notes, n.start < n.stop ∧ 0 < n.velocity ∧ n.pitch < 128)
    (hsep : i.notes.Pairwise sepSamePitch) (hne : i.notes ≠ [])
    {q t : ℕ} {m : Note} (ht : t < i.get_end_time) (hm : m ∈ i.notes)
    (hcov : covers m q t) :
    (column (i.get_piano_roll none) q).getD t 0 = m.velocity := by
  rw [encoded_col_getD i hne ht]
  exact sum_cover_unique hsep (fun r hr => ⟨(hvalid r hr).1, stop_le_get_end_time hr⟩) hm hcov

theorem encoded_col_no_cover (i : Instrument) (hne : i.notes ≠ [])
    {q t : ℕ} (ht : t < i.get_end_time)
    (hnone : ∀ m ∈ i.notes, ¬covers m q t) :
    (column (i.get_piano_roll none) q).getD t 0 = 0 := by
  rw [encoded_col_getD i hne ht]
  exact sum_no_cover hnone

theorem encoded_run_iff (i : Instrument)
    (hvalid : ∀ n ∈ i.notes, n.start < n.stop ∧ 0 < n.velocity ∧ n.pitch < 128)
    (hsep : i.notes.Pairwise sepSamePitch) (hne : i.notes ≠ [])
    (q s e : ℕ) :
    IsRun (column (i.get_piano_roll none) q) s e ↔
      ∃ m ∈ i.notes, m.pitch = q ∧ m.start = s ∧ m.stop = e := by
  have hlen : (column (i.get_piano_roll none) q).length = i.get_end_time := by
    rw [column_length, encoded_roll_eq i hne]
  have hb : ∀ m ∈ i.notes, m.start < m.stop ∧ m.stop ≤ i.get_end_time :=
    fun m hm => ⟨(hvalid m hm).1, stop_le_get_end_time hm⟩
  constructor
  · rintro ⟨hse, hel, hin, hbl, hbr⟩
    rw [hlen] at hel
    have hnz : (column (i.get_piano_roll none) q).getD s 0 ≠ 0 := hin s (by omega) (by omega)
    have hex : ∃ m ∈ i.notes, covers m q s := by
      by_contra hno
      push_neg at hno
      exact hnz (encoded_col_no_cover i hne (by omega) hno)
    obtain ⟨m, hm, hcov⟩ := hex
    have hprop : ∀ t, s ≤ t → t < e → covers m q t := by
      intro t hst
      induction t, hst using Nat.le_induction with
      | base => intro _; exact hcov
      | succ t hst ih =>
        intro hte
        have hct : covers m q t := ih (by omega)
        by_cases hlt : t + 1 < m.stop
        · exact ⟨hct.1, by have := hct.2.1; omega, hlt⟩
        · exfalso
          have hnz1 : (column (i.get_piano_roll none) q).getD (t + 1) 0 ≠ 0 :=
            hin (t + 1) (by omega) (by omega)
          have hex1 : ∃ r ∈ i.notes, covers r q (t + 1) := by
            by_contra hno
            push_neg at hno
            exact hnz1 (encoded_col_no_cover i hne (by omega) hno)
          obtain ⟨r, hr, hcovr⟩ := hex1
          have hner : m ≠ r := by
            intro hEq
            rw [← hEq] at hcovr
            exact hlt hcovr.2.2
          have hrel := hsep.forall sepSamePitch_symm hm hr hner
          have hpq : m.pitch = r.pitch := by rw [hct.1, hcovr.1]
          rcases hrel hpq with h1 | h1
          · have := hct.2.2; have := hcovr.2.1; omega
          · have := hcovr.2.2; have := hct.2.1; omega
    have hstart : m.start = s := by
      by_contra hns
      have hlt : m.start < s := by have := hcov.2.1; omega
      have hcovs : covers m q (s - 1) := ⟨hcov.1, by omega, by have := hcov.2.2; omega⟩
      have hval : (column (i.get_piano_roll none) q).getD (s - 1) 0 = m.velocity :=
        encoded_col_cover i hvalid hsep hne (by omega) hm hcovs
      rcases hbl with h0 | h0
      · omega
      · rw [h0] at hval
        have := (hvalid m hm).2.1
        omega
    have he_le : e ≤ m.stop := by
      have := (hprop (e - 1) (by omega) (by omega)).2.2
      omega
    have hstop : m.stop = e := by
      by_contra hns
      have hlt : e < m.stop := by omega
      have heT : e < i.get_end_time := by have := (hb m hm).2; omega
      have hcove : covers m q e := ⟨hcov.1, by have := hcov.2.1; omega, hlt⟩
      have hval : (column (i.get_piano_roll none) q).getD e 0 = m.velocity :=
        encoded_col_cover i hvalid hsep hne heT hm hcove
      rcases hbr with h0 | h0
      · rw [hlen] at h0
        omega
      · rw [h0] at hval
        have := (hvalid m hm).2.1
        omega
    exact ⟨m, hm, hcov.1, hstart, hstop⟩
  · rintro ⟨m, hm, hq, hs, he⟩
    subst hq
    subst hs
    subst he
    have hmsT := (hb m hm).2
    have hms := (hb m hm).1
    refine ⟨hms, by rw [hlen]; exact hmsT, ?_, ?_, ?_⟩
    · intro t ht hst
      have hval : (column (i.get_piano_roll none) m.pitch).getD t 0 = m.velocity :=
        encoded_col_cover i hvalid hsep hne (by omega) hm ⟨rfl, hst, ht⟩
      rw [hval]
      have := (hvalid m hm).2.1
      omega
    · rcases Nat.eq_zero_or_pos m.start with h0 | h0
      · exact Or.inl h0
      · refine Or.inr ?_
        apply encoded_col_no_cover i hne (by omega)
        intro r hr hcovr
        by_cases hEq : r = m
        · rw [hEq] at hcovr
          have := hcovr.2.1
          omega
        · have hrel := hsep.forall sepSamePitch_symm hm hr (fun h => hEq h.symm)
          rcases hrel hcovr.1.symm with h1 | h1
          · have := hcovr.2.1
            omega
          · have := hcovr.2.2
            omega
    · rcases Nat.lt_or_ge m.stop i.get_end_time with hT | hT
      · refine Or.inr ?_
        apply encoded_col_no_cover i hne hT
        intro r hr hcovr
        by_cases hEq : r = m
        · rw [hEq] at hcovr
          have := hcovr.2.2
          omega
        · have hrel := hsep.forall sepSamePitch_symm hm hr (fun h => hEq h.symm)
          rcases hrel hcovr.1.symm with h1 | h1
          · have := hcovr.2.1
            omega
          · have := hcovr.2.2
            omega
      · exact Or.inl (by rw [hlen]; omega)

theorem encoded_run_velocity (i : Instrument)
    (hvalid : ∀ n ∈ i.notes, n.start < n.stop ∧ 0 < n.velocity ∧ n.pitch < 128)
    (hsep : i.notes.Pairwise sepSamePitch) (hne : i.notes ≠ [])
    {m : Note} (hm : m ∈ i.notes) :
    (column (i.get_piano_roll none) m.pitch).getD (m.stop - 1) 0 = m.velocity := by
  have hms := (hvalid m hm).1
  have hT := stop_le_get_end_time hm
  exact encoded_col_cover i hvalid hsep hne (by omega) hm ⟨rfl, by omega, by omega⟩

/-! ## Claim theorems for the piano-roll codec -/

/-- C2 (amended): decoding a well-shaped piano roll run-length-encodes each
pitch column: a note is emitted exactly for each maximal contiguous non-zero
run, with start the first non-zero tick and end the first zero tick after the
run (or the matrix length); its velocity is the matrix value at the LAST
tick of the run (tick end - 1), not the value at the run start. -/
theorem c2_decode_velocity_at_run_end (roll : PianoRoll) (h : roll.cols = 128)
    (program : ℕ) (is_drum : Bool) (name : String) (n : Note) :
    (∃ i, get_instrument_from_piano_roll roll program is_drum name = .ok i ∧ n ∈ i.notes) ↔
      ∃ q, q < 128 ∧ ∃ s e, IsRun (column roll q) s e ∧
        n = ⟨(column roll q).getD (e - 1) 0, q, s, e⟩ :=
  decode_mem_iff roll h program is_drum name n

/-- Witness for C2: the characterization applied to the concrete roll. -/
theorem c2_decode_velocity_at_run_end_witness :
    (∃ i, get_instrument_from_piano_roll c2Roll 0 false "" = .ok i ∧
        (⟨7, 0, 0, 2⟩ : Note) ∈ i.notes) ↔
      ∃ q, q < 128 ∧ ∃ s e, IsRun (column c2Roll q) s e ∧
        (⟨7, 0, 0, 2⟩ : Note) = ⟨(column c2Roll q).getD (e - 1) 0, q, s, e⟩ :=
  c2_decode_velocity_at_run_end c2Roll rfl 0 false "" ⟨7, 0, 0, 2⟩

/-- C9 (amended): with no caller bound, `get_piano_roll` of an instrument
with notes is the `[max end x 128]` integer matrix where each note adds its
velocity on its `[start, end) x pitch` region (skipped when it starts at or
past the bound, truncated past it); with no notes the result is the 1 x 0
matrix, not a 0 x 128 one. -/
theorem c9_piano_roll_shape_and_fill (i : Instrument) :
    (i.notes = [] → i.get_piano_roll none = ⟨1, 0, fun _ _ => 0⟩) ∧
    (i.notes ≠ [] →
      (i.get_piano_roll none).rows = i.get_end_time ∧
      (i.get_piano_roll none).cols = 128 ∧
      ∀ t q, (i.get_piano_roll none).val t q =
        (i.notes.map (fun n =>
          if n.start < i.get_end_time ∧ q = n.pitch ∧ n.start ≤ t ∧
              t < min n.stop i.get_end_time
          then n.velocity else 0)).sum) := by
  constructor
  · intro h
    unfold Instrument.get_piano_roll
    rw [if_pos h]
  · intro h
    rw [encoded_roll_eq i h]
    refine ⟨rfl, rfl, fun t q => ?_⟩
    simpa using foldl_addNote_val i.get_end_time i.notes (fun _ _ => 0) t q

/-- Witness for C9: shape and a filled cell of a concrete one-note roll. -/
theorem c9_piano_roll_shape_and_fill_witness :
    (c9Instr.get_piano_roll none).rows = c9Instr.get_end_time ∧
    (c9Instr.get_piano_roll none).cols = 128 ∧
    (c9Instr.get_piano_roll none).val 1 60 = 100 := by
  have h := (c9_piano_roll_shape_and_fill c9Instr).2 (by decide)
  refine ⟨h.1, h.2.1, ?_⟩
  rw [h.2.2 1 60]
  decide

/-- C7 counterexample: the two notes of `c7Instr` share pitch 60 and do not
overlap (they abut at tick 2), yet decoding the encoding yields the single
merged note `[0, 4)`, so the original note `[0, 2)` is not recovered. -/
theorem c7_counterexample :
    (∀ a ∈ c7Instr.notes, ∀ b ∈ c7Instr.notes, a ≠ b → a.pitch = b.pitch →
      ¬(a.start < b.stop ∧ b.start < a.stop)) ∧
    get_instrument_from_piano_roll (c7Instr.get_piano_roll none)
        c7Instr.program c7Instr.is_drum c7Instr.name
      = .ok ⟨0, false, "", [⟨5, 60, 0, 4⟩]⟩ ∧
    (⟨5, 60, 0, 2⟩ : Note) ∈ c7Instr.notes ∧
    (⟨5, 60, 0, 2⟩ : Note) ∉ ([⟨5, 60, 0, 4⟩] : List Note) := by
  refine ⟨by decide, ?_, by decide, by decide⟩
  rfl

/-- C7 (amended): decode is a left inverse of encode on every non-empty
instrument whose notes are valid (positive duration, positive velocity,
pitch below 128) and whose same-pitch notes are strictly separated (no
overlap and no abutting): the decoded note set equals the original. -/
theorem c7_decode_encode_roundtrip (i : Instrument) (hne : i.notes ≠ [])
    (hvalid : ∀ n ∈ i.notes, n.start < n.stop ∧ 0 < n.velocity ∧ n.pitch < 128)
    (hsep : i.notes.Pairwise sepSamePitch) :
    ∃ out, get_instrument_from_piano_roll (i.get_piano_roll none)
        i.program i.is_drum i.name = .ok out ∧
      out.notes.toFinset = i.notes.toFinset := by
  have hcols : (i.get_piano_roll none).cols = 128 := by
    rw [encoded_roll_eq i hne]
  have hok : ∃ out, get_instrument_from_piano_roll (i.get_piano_roll none)
      i.program i.is_drum i.name = .ok out := by
    unfold get_instrument_from_piano_roll
    rw [if_neg (by simp [hcols])]
    exact ⟨_, rfl⟩
  obtain ⟨out, hout⟩ := hok
  refine ⟨out, hout, ?_⟩
  apply Finset.ext
  intro n
  rw [List.mem_toFinset, List.mem_toFinset]
  have hiff := decode_mem_iff (i.get_piano_roll none) hcols i.program i.is_drum i.name n
  constructor
  · intro hn
    obtain ⟨q, hq, s, e, hrun, hneq⟩ := hiff.mp ⟨out, hout, hn⟩
    obtain ⟨m, hm, hmq, hms, hme⟩ := (encoded_run_iff i hvalid hsep hne q s e).mp hrun
    subst hmq
    subst hms
    subst hme
    rw [encoded_run_velocity i hvalid hsep hne hm] at hneq
    have hEq : (⟨m.velocity, m.pitch, m.start, m.stop⟩ : Note) = m := rfl
    rw [hneq, hEq]
    exact hm
  · intro hn
    have h2 := hiff.mpr ⟨n.pitch, (hvalid n hn).2.2, n.start, n.stop,
      (encoded_run_iff i hvalid hsep hne n.pitch n.start n.stop).mpr ⟨n, hn, rfl, rfl, rfl⟩,
      by rw [encoded_run_velocity i hvalid hsep hne hn]⟩
    obtain ⟨i2, hi2, hn2⟩ := h2
    rw [hout] at hi2
    injection hi2 with h3
    rw [h3]
    exact hn2

/-- Witness for C7: the round trip on a concrete separated instrument. -/
theorem c7_decode_encode_roundtrip_witness :
    ∃ out, get_instrument_from_piano_roll (c7Witness.get_piano_roll none)
        c7Witness.program c7Witness.is_drum c7Witness.name = .ok out ∧
      out.notes.toFinset = c7Witness.notes.toFinset :=
  c7_decode_encode_roundtrip c7Witness (by decide) (by decide) (by decide)

/-! ## Claim theorems for serialization -/

/-- C1: whenever the key-signature or tempo-change list is non-empty,
`MidiLoader.write` raises AttributeError while building the meta events
(reading the missing `ks.key` or `tc.bpm`), before any track is emitted;
and `MidiWriter.write` raises that error on every call, because it installs
a default TempoChange when the list is empty. -/
theorem c1_write_attribute_error :
    (∀ st : MidiObjectState, st.key_signatures ≠ [] ∨ st.tempo_changes ≠ [] →
      ∃ msg, loaderWrite st = .error (.attributeError msg)) ∧
    (∀ st : MidiObjectState, ∃ msg, writerWrite st = .error (.attributeError msg)) := by
  constructor
  · intro st h
    rcases hk : st.key_signatures with _ | ⟨a, l⟩
    · rcases ht : st.tempo_changes with _ | ⟨b, m⟩
      · rw [hk, ht] at h
        simp at h
      · exact ⟨"bpm", by simp [loaderWrite, buildMetaEvents, hk, ht, Except.map]⟩
    · exact ⟨"key", by simp [loaderWrite, buildMetaEvents, hk, Except.map]⟩
  · intro st
    rcases hk : st.key_signatures with _ | ⟨a, l⟩
    · refine ⟨"bpm", ?_⟩
      rcases ht : st.tempo_changes with _ | ⟨b, m⟩ <;>
        simp [writerWrite, loaderWrite, buildMetaEvents, hk, ht, Except.map]
    · exact ⟨"key", by simp [writerWrite, loaderWrite, buildMetaEvents, hk, Except.map]⟩

/-- Witness for C1 at concrete states. -/
theorem c1_write_attribute_error_witness :
    (∃ msg, loaderWrite ⟨480, [], [], [⟨120, 0⟩], []⟩ = .error (.attributeError msg)) ∧
    (∃ msg, writerWrite ⟨480, [], [], [], []⟩ = .error (.attributeError msg)) :=
  ⟨c1_write_attribute_error.1 ⟨480, [], [], [⟨120, 0⟩], []⟩ (Or.inr (by simp)),
   c1_write_attribute_error.2 ⟨480, [], [], [], []⟩⟩

theorem nonDrumCount_cons (i : Instrument) (l : List Instrument) :
    nonDrumCount (i :: l) = (if i.is_drum then 0 else 1) + nonDrumCount l := by
  unfold nonDrumCount
  cases hd : i.is_drum
  · simp only [List.filter_cons, hd]
    simp
    omega
  · simp [List.filter_cons, hd]

/-- The instrument loop emits exactly the prefix of the document up to and
including the 16th non-drum instrument, with no skip of channel 9. -/
theorem assignLoop_eq_take (l : List Instrument) (cc : ℕ) (h : cc ≤ 15) :
    assignLoop l cc = chanAssignFull (l.take (cutAt l (16 - cc))) cc := by
  induction l generalizing cc with
  | nil => simp [assignLoop, chanAssignFull]
  | cons i rest ih =>
    by_cases hd : i.is_drum
    · have e1 : assignLoop (i :: rest) cc = (9, i) :: assignLoop rest cc := by
        simp [assignLoop, hd]
      have e2 : cutAt (i :: rest) (16 - cc) = cutAt rest (16 - cc) + 1 := by
        simp [cutAt, hd]
      rw [e1, e2, List.take_succ_cons]
      have e3 : chanAssignFull (i :: rest.take (cutAt rest (16 - cc))) cc
          = (9, i) :: chanAssignFull (rest.take (cutAt rest (16 - cc))) cc := by
        simp [chanAssignFull, hd]
      rw [e3, ih cc h]
    · by_cases h15 : cc + 1 > 15
      · have hcc : cc = 15 := by omega
        subst hcc
        have e1 : assignLoop (i :: rest) 15 = [(15, i)] := by
          norm_num [assignLoop, hd]
        have e2 : cutAt (i :: rest) (16 - 15) = 1 := by
          norm_num [cutAt, hd]
        rw [e1, e2, List.take_succ_cons, List.take_zero]
        norm_num [chanAssignFull, hd]
      · have hk1 : ¬(16 - cc ≤ 1) := by omega
        have e1 : assignLoop (i :: rest) cc = (cc, i) :: assignLoop rest (cc + 1) := by
          simp [assignLoop, hd, h15]
        have e2 : cutAt (i :: rest) (16 - cc) = cutAt rest (16 - (cc + 1)) + 1 := by
          simp only [cutAt, hd, if_false, if_neg hk1, Bool.false_eq_true]
          rw [show 16 - cc - 1 = 16 - (cc + 1) from by omega]
        rw [e1, e2, List.take_succ_cons]
        have e3 : chanAssignFull (i :: rest.take (cutAt rest (16 - (cc + 1)))) cc
            = (cc, i) :: chanAssignFull (rest.take (cutAt rest (16 - (cc + 1)))) (cc + 1) := by
          simp [chanAssignFull, hd]
        rw [e3, ih (cc + 1) (by omega)]

theorem cutAt_nonDrumCount (l : List Instrument) (k : ℕ) (hk : 1 ≤ k)
    (h : k ≤ nonDrumCount l) : nonDrumCount (l.take (cutAt l k)) = k := by
  induction l generalizing k with
  | nil =>
    simp [nonDrumCount] at h
    omega
  | cons i rest ih =>
    rw [nonDrumCount_cons] at h
    by_cases hd : i.is_drum
    · rw [if_pos hd, zero_add] at h
      have e2 : cutAt (i :: rest) k = cutAt rest k + 1 := by
        simp [cutAt, hd]
      rw [e2, List.take_succ_cons, nonDrumCount_cons, if_pos hd, zero_add]
      exact ih k hk h
    · rw [if_neg hd] at h
      by_cases h1 : k ≤ 1
      · have hk1 : k = 1 := by omega
        subst hk1
        have e2 : cutAt (i :: rest) 1 = 1 := by
          simp [cutAt, hd]
        rw [e2, List.take_succ_cons, List.take_zero, nonDrumCount_cons, if_neg hd]
        simp [nonDrumCount]
      · have e2 : cutAt (i :: rest) k = cutAt rest (k - 1) + 1 := by
          simp [cutAt, hd, h1]
        rw [e2, List.take_succ_cons, nonDrumCount_cons, if_neg hd,
          ih (k - 1) (by omega) (by omega)]
        omega

/-- C3 counterexample: sixteen non-drum instruments produce SIXTEEN
instrument tracks, and the sixteenth instrument (with its notes) is emitted
on channel 15 - not fifteen tracks with the sixteenth dropped. -/
theorem c3_counterexample :
    (∀ i ∈ c3Instrs, i.is_drum = false) ∧
    c3Instrs.length = 16 ∧
    nonDrumCount c3Instrs = 16 ∧
    (instrumentTracks c3Instrs).length = 16 ∧
    (assignLoop c3Instrs 0).map Prod.snd = c3Instrs ∧
    ¬((instrumentTracks c3Instrs).length = 15) := by
  decide

/-- C3 (amended): past the FIFTEENTH channel - i.e. after the 16th non-drum
instrument has been emitted - all remaining instruments are dropped; with
more than 15 non-drum instruments the advisory fires, and exactly the prefix
through the 16th non-drum instrument is emitted (so 16 non-drum instruments
yield 16 tracks, not 15). -/
theorem c3_drop_after_sixteenth_nondrum (instrs : List Instrument)
    (h : 15 < nonDrumCount instrs) :
    tooManyWarning instrs = true ∧
    instrumentTracks instrs =
      (chanAssignFull (instrs.take (cutAt instrs 16)) 0).map (fun pr => emitTrack pr.1 pr.2) ∧
    nonDrumCount (instrs.take (cutAt instrs 16)) = 16 := by
  refine ⟨?_, ?_, ?_⟩
  · simp only [tooManyWarning, decide_eq_true_eq]
    exact h
  · unfold instrumentTracks
    rw [assignLoop_eq_take instrs 0 (by omega)]
  · exact cutAt_nonDrumCount instrs 16 (by omega) (by omega)

/-- Witness for C3 on the sixteen-instrument document. -/
theorem c3_drop_after_sixteenth_nondrum_witness :
    tooManyWarning c3Instrs = true ∧
    instrumentTracks c3Instrs =
      (chanAssignFull (c3Instrs.take (cutAt c3Instrs 16)) 0).map (fun pr => emitTrack pr.1 pr.2) ∧
    nonDrumCount (c3Instrs.take (cutAt c3Instrs 16)) = 16 :=
  c3_drop_after_sixteenth_nondrum c3Instrs (by decide)

theorem chanAssignFull_drum_nine (l : List Instrument) (cc : ℕ) :
    ∀ pr ∈ chanAssignFull l cc, pr.2.is_drum = true → pr.1 = 9 := by
  induction l generalizing cc with
  | nil => simp [chanAssignFull]
  | cons i rest ih =>
    intro pr hpr hdrum
    by_cases hd : i.is_drum
    · rw [chanAssignFull, if_pos hd] at hpr
      rcases List.mem_cons.mp hpr with rfl | h1
      · rfl
      · exact ih cc pr h1 hdrum
    · rw [chanAssignFull, if_neg hd] at hpr
      rcases List.mem_cons.mp hpr with rfl | h1
      · rw [hdrum] at hd
        simp at hd
      · exact ih (cc + 1) pr h1 hdrum

/-- C4 counterexample: with ten non-drum instruments the tenth is emitted on
channel 9 (channels are assigned 0,1,2,... with no skip), refuting the claim
that no non-drum instrument is ever emitted on channel 9. -/
theorem c4_counterexample :
    (∀ i ∈ c4Instrs, i.is_drum = false) ∧
    (assignLoop c4Instrs 0).map Prod.fst = [0, 1, 2, 3, 4, 5, 6, 7, 8, 9] ∧
    ∃ pr ∈ assignLoop c4Instrs 0, pr.2.is_drum = false ∧ pr.1 = 9 := by
  decide

/-- C4 (amended): drum instruments are always emitted on channel 9, and the
non-drum instruments receive the consecutive channels 0,1,2,... in document
order with NO skip over 9 (`chanAssignFull`), the loop stopping after the
16th non-drum instrument; so the 10th non-drum instrument lands on
channel 9. -/
theorem c4_channel_assignment (instrs : List Instrument) :
    (∀ pr ∈ assignLoop instrs 0, pr.2.is_drum = true → pr.1 = 9) ∧
    assignLoop instrs 0 = chanAssignFull (instrs.take (cutAt instrs 16)) 0 := by
  have heq := assignLoop_eq_take instrs 0 (by omega)
  refine ⟨?_, heq⟩
  rw [heq]
  exact chanAssignFull_drum_nine _ 0

/-- Witness for C4 on a drum plus melodic pair. -/
theorem c4_channel_assignment_witness :
    ((9, (⟨0, true, "", []⟩ : Instrument)).1 = 9) ∧
    assignLoop c4WitnessInstrs 0 =
      chanAssignFull (c4WitnessInstrs.take (cutAt c4WitnessInstrs 16)) 0 :=
  ⟨(c4_channel_assignment c4WitnessInstrs).1 (9, ⟨0, true, "", []⟩) (by decide) (by decide),
   (c4_channel_assignment c4WitnessInstrs).2⟩

/-! ## Claim theorems for the loader -/

/-- C6 counterexample: a note_on at tick 5 immediately closed at tick 5
appends no Note, but `__get_instrument` has already run, so the document
gains one EMPTY instrument - the instruments collection is not unchanged. -/
theorem c6_counterexample :
    loadInstruments c6Tracks = [⟨0, false, "", []⟩] ∧
    loadInstruments c6Tracks ≠ [] := by
  refine ⟨?_, by decide⟩
  rfl

/-- C6 (amended): a note_off (or note_on with velocity 0) whose tick equals
the opening tick of its matching open entry appends no Note and leaves the
open-note table unchanged (the entry is NOT removed), but the Instrument IS
resolved first: the instrument map either already holds the key and is
unchanged, or gains exactly one fresh empty instrument keyed by
(opened-program, channel, track); in particular every instrument of the
resulting map is an old one or has no notes. -/
theorem c6_zero_duration_discard (resolveName : String) (st : LoadState)
    (track_id ch note time prog vel : ℕ)
    (h : alLookup st.last_note_on (track_id, ch, note) = some (prog, vel, time)) :
    (instrStep resolveName st (track_id, ⟨.note_off ch note 0, time⟩)).last_note_on
        = st.last_note_on ∧
    (∀ kv ∈ (instrStep resolveName st (track_id, ⟨.note_off ch note 0, time⟩)).instrument_map,
      kv ∈ st.instrument_map ∨ kv.2.notes = []) ∧
    ((instrStep resolveName st (track_id, ⟨.note_off ch note 0, time⟩)).instrument_map
        = st.instrument_map ∨
      (instrStep resolveName st (track_id, ⟨.note_off ch note 0, time⟩)).instrument_map
        = st.instrument_map ++
            [((prog, ch, track_id), ⟨prog, ch == 9, resolveName, []⟩)]) := by
  unfold instrStep closeNote
  simp only [h, if_true]
  unfold getInstrument
  cases hl : alLookup st.instrument_map (prog, ch, track_id) with
  | some i =>
    refine ⟨trivial, ?_, Or.inl rfl⟩
    intro kv hkv
    exact Or.inl hkv
  | none =>
    refine ⟨trivial, ?_, Or.inr rfl⟩
    intro kv hkv
    rcases List.mem_append.mp hkv with h1 | h1
    · exact Or.inl h1
    · refine Or.inr ?_
      rcases List.mem_singleton.mp h1 with rfl
      rfl

/-- Witness for C6 at a concrete state. -/
theorem c6_zero_duration_discard_witness :
    (instrStep "" c6State (1, ⟨.note_off 0 60 0, 5⟩)).last_note_on = c6State.last_note_on ∧
    (∀ kv ∈ (instrStep "" c6State (1, ⟨.note_off 0 60 0, 5⟩)).instrument_map,
      kv ∈ c6State.instrument_map ∨ kv.2.notes = []) ∧
    ((instrStep "" c6State (1, ⟨.note_off 0 60 0, 5⟩)).instrument_map
        = c6State.instrument_map ∨
      (instrStep "" c6State (1, ⟨.note_off 0 60 0, 5⟩)).instrument_map
        = c6State.instrument_map ++ [((0, 0, 1), ⟨0, false, "", []⟩)]) :=
  c6_zero_duration_discard "" c6State 1 0 60 5 0 80 (by decide)

theorem loadTrack0_error_ne_corrupt :
    ∀ (l : List TimedEvent) (e : PyErr), loadTrack0 l = .error e →
      e ≠ .valueError corruptMsg := by
  intro l
  induction l with
  | nil =>
    intro e h
    simp [loadTrack0] at h
  | cons ev rest ih =>
    intro e h
    obtain ⟨evv, time⟩ := ev
    cases evv <;> simp only [loadTrack0] at h
    case note_on ch note vel => exact ih e h
    case note_off ch note vel => exact ih e h
    case program_change ch prog => exact ih e h
    case track_name nm => exact ih e h
    case set_tempo tempo =>
      unfold tempo2bpm at h
      by_cases h0 : tempo = 0
      · rw [if_pos h0] at h
        simp only [Except.bind] at h
        injection h with hx
        rw [← hx]
        decide
      · rw [if_neg h0] at h
        simp only [Except.bind] at h
        cases hr : loadTrack0 rest with
        | error e2 =>
          rw [hr] at h
          simp only [Except.map] at h
          injection h with hx
          rw [← hx]
          exact ih e2 hr
        | ok meta =>
          rw [hr] at h
          simp only [Except.map] at h
          cases h
    case time_signature num den =>
      by_cases hn : num = 0
      · rw [if_pos hn] at h
        injection h with hx
        rw [← hx]
        decide
      · rw [if_neg hn] at h
        by_cases hd : den = 0
        · rw [if_pos hd] at h
          injection h with hx
          rw [← hx]
          decide
        · rw [if_neg hd] at h
          cases hr : loadTrack0 rest with
          | error e2 =>
            rw [hr] at h
            simp only [Except.map] at h
            injection h with hx
            rw [← hx]
            exact ih e2 hr
          | ok meta =>
            rw [hr] at h
            simp only [Except.map] at h
            cases h
    case key_signature k =>
      injection h with hx
      rw [← hx]
      decide
    case end_of_track => exact ih e h
    case other => exact ih e h

theorem toAbsolute_isEmpty (t : List TimedEvent) (k : ℕ) :
    (toAbsolute t k).isEmpty = t.isEmpty := by
  cases t <;> simp [toAbsolute]

theorem any_isEmpty_toAbsolute (ts : List (List TimedEvent)) :
    ((ts.map (fun t => toAbsolute t 0)).any (fun t => t.isEmpty))
      = ts.any (fun t => t.isEmpty) := by
  induction ts with
  | nil => rfl
  | cons t rest ih => simp [toAbsolute_isEmpty, ih]

theorem all_not_isEmpty (ts : List (List TimedEvent)) :
    (ts.all (fun t => !t.isEmpty)) = !(ts.any (fun t => t.isEmpty)) := by
  induction ts with
  | nil => rfl
  | cons t rest ih => simp [ih]

/-- C8 counterexample: a type-1 two-track file with max absolute tick 10^7
whose track 0 carries a zero-numerator time signature raises the
TimeSignature validation error in `_load_track0`, which runs BEFORE the
max-tick check - so the corruption error is not raised even though the
maximum tick reaches 10^7. -/
theorem c8_counterexample :
    load c8Data none = .error (.valueError "numerator") ∧
    c8Data.fileType = 1 ∧
    1 < c8Data.tracks.length ∧
    10000000 ≤ maxAbsTick c8Data ∧
    (PyErr.valueError "numerator") ≠ (.valueError corruptMsg) := by
  refine ⟨?_, rfl, by decide, by decide, by decide⟩
  rfl

/-- C8 (amended): for a type-1 input with more than one track (and no
resolution argument), loading raises the corruption error iff track-0 meta
extraction succeeds, every track is non-empty (Python max on an empty track
raises first), and the maximum absolute tick after delta-to-absolute
conversion reaches or exceeds 10^7.  The error propagates out of the
constructor, so no document - in particular no instrument list - is
produced. -/
theorem c8_corruption_iff (md : MidiData) (h1 : md.fileType = 1)
    (h2 : 1 < md.tracks.length) :
    load md none = .error (.valueError corruptMsg) ↔
      ((loadTrack0 ((md.tracks.map (fun t => toAbsolute t 0)).headD [])).isOk ∧
       md.tracks.all (fun t => !t.isEmpty) ∧
       10000000 ≤ maxAbsTick md) := by
  unfold load
  rw [if_neg (by omega), if_neg (by omega), if_neg (by simp)]
  cases hm : loadTrack0 ((md.tracks.map (fun t => toAbsolute t 0)).headD []) with
  | error e =>
    simp only [hm, Except.bind]
    constructor
    · intro h
      injection h with hx
      exact absurd hx (loadTrack0_error_ne_corrupt _ e hm)
    · rintro ⟨hok, -, -⟩
      simp [Except.isOk, Except.toBool] at hok
  | ok meta =>
    simp only [hm, Except.bind]
    cases hmax : maxTickOf (md.tracks.map (fun t => toAbsolute t 0)) with
    | error e2 =>
      simp only [hmax]
      have hcond : (md.tracks.any (fun t => t.isEmpty)) = true ∧
          e2 = .valueError "max arg is an empty sequence" := by
        unfold maxTickOf at hmax
        by_cases hc : (md.tracks.map (fun t => toAbsolute t 0)).any (fun t => t.isEmpty)
        · rw [if_pos hc] at hmax
          injection hmax with hx
          rw [any_isEmpty_toAbsolute] at hc
          exact ⟨hc, hx.symm⟩
        · rw [if_neg hc] at hmax
          cases hmax
      constructor
      · intro h
        injection h with hx
        rw [hcond.2] at hx
        exact absurd hx (by decide)
      · rintro ⟨-, hall, -⟩
        rw [all_not_isEmpty, hcond.1] at hall
        simp at hall
    | ok M =>
      simp only [hmax]
      have hM : M = maxAbsTick md + 1 ∧
          (md.tracks.any (fun t => t.isEmpty)) = false := by
        unfold maxTickOf at hmax
        by_cases hc : (md.tracks.map (fun t => toAbsolute t 0)).any (fun t => t.isEmpty)
        · rw [if_pos hc] at hmax
          cases hmax
        · rw [if_neg hc] at hmax
          injection hmax with hx
          rw [any_isEmpty_toAbsolute] at hc
          refine ⟨hx.symm, ?_⟩
          rwa [Bool.not_eq_true] at hc
      by_cases hbig : 10000000 < M
      · rw [if_pos hbig]
        constructor
        · intro _
          refine ⟨rfl, ?_, by omega⟩
          rw [all_not_isEmpty, hM.2]
          rfl
        · intro _
          rfl
      · rw [if_neg hbig]
        constructor
        · intro h
          cases h
        · rintro ⟨-, -, hge⟩
          exfalso
          omega

/-- Witness for C8: a file whose corruption check fires. -/
theorem c8_corruption_iff_witness :
    load c8Witness none = .error (.valueError corruptMsg) ↔
      ((loadTrack0 ((c8Witness.tracks.map (fun t => toAbsolute t 0)).headD [])).isOk ∧
       c8Witness.tracks.all (fun t => !t.isEmpty) ∧
       10000000 ≤ maxAbsTick c8Witness) :=
  c8_corruption_iff c8Witness rfl (by decide)

end UglyMidi
